import Mathlib

/-!
Verification development for a directed-graph motif tool.

The repository has two Python modules:
* `q2.py` — canonicalizes a labeled directed graph by brute force over all
  vertex permutations (lexicographically smallest adjacency matrix), enumerates
  all motifs on `n` vertices by iterating every `n*n`-bit adjacency bitmask,
  and counts induced subgraph occurrences of each motif in a host graph.
* `q1.py` — enumerates all weakly connected directed graphs on `n` vertices
  (no self-loops, at least one edge) and removes isomorphic duplicates by a
  pairwise isomorphism check.

Graphs are shallowly embedded: an edge list is a `List (Nat × Nat)`, an
adjacency matrix is a `List (List Nat)` of 0/1 entries (a list of rows).
Python's tuple-of-tuples comparison on equally shaped matrices coincides with
the lexicographic `LinearOrder` on `List (List Nat)`.
-/

/-- Entry `M[i][j]` of a row-major matrix, defaulting to `0` out of range. -/
def entry (M : List (List Nat)) (i j : Nat) : Nat := (M.getD i []).getD j 0

/-- The `n×n` matrix with entry `f i j` at position `(i, j)`. Proof-side
normal form for the matrices the program builds. -/
def mkMatrix (n : Nat) (f : Nat → Nat → Nat) : List (List Nat) :=
  (List.range n).map (fun i => (List.range n).map (fun j => f i j))

/-- The inverse of a permutation list `p` of `0..n-1`: position `a` holds the
index at which `p` holds `a`. Proof-side helper. -/
def invPerm (n : Nat) (p : List Nat) : List Nat :=
  (List.range n).map (fun a => p.indexOf a)

/-- The adjacency-matrix construction at the top of `graph_to_canonical`
(q2.py lines 41–43): start from an all-zero `n×n` matrix and set
`adj[u][v] = 1` for every edge `(u, v)`. -/
def buildAdj (n_vertices : Nat) (edge_list : List (Nat × Nat)) : List (List Nat) :=
  edge_list.foldl
    (fun adj e => adj.set e.1 ((adj.getD e.1 []).set e.2 1))
    (List.replicate n_vertices (List.replicate n_vertices 0))

/-- The permuted matrix `perm_adj[i][j] = adj[perm[i]][perm[j]]`
(q2.py lines 50–53). `perm` is a permutation of `0..n-1` given as a list. -/
def permMatrix (n_vertices : Nat) (adj : List (List Nat)) (perm : List Nat) :
    List (List Nat) :=
  (List.range n_vertices).map (fun i =>
    (List.range n_vertices).map (fun j =>
      entry adj (perm.getD i 0) (perm.getD j 0)))

/-- One step of the running minimum in `graph_to_canonical`
(q2.py line 58): `best = t if best is None or t < best else best`. -/
def pickMin (best : Option (List (List Nat))) (t : List (List Nat)) :
    Option (List (List Nat)) :=
  match best with
  | none => some t
  | some b => if t < b then some t else some b

/-- All ways to insert `x` into the list, one per position. -/
def insertsL {α : Type} (x : α) : List α → List (List α)
  | [] => [[x]]
  | y :: ys => (x :: y :: ys) :: (insertsL x ys).map (fun zs => y :: zs)

/-- All permutations of a list, the model of `itertools.permutations`.
The `mem_permsL` theorem shows it enumerates exactly the permutations;
`graph_to_canonical` takes a minimum over this list, so the difference in
iteration order from `itertools` cannot affect any result. -/
def permsL {α : Type} : List α → List (List α)
  | [] => [[]]
  | x :: xs => (permsL xs).flatMap (insertsL x)

/-- The list of permuted adjacency matrices `graph_to_canonical` iterates over:
one candidate per permutation of `range n_vertices` (q2.py lines 48–56). -/
def candMatrices (n_vertices : Nat) (edge_list : List (Nat × Nat)) :
    List (List (List Nat)) :=
  (permsL (List.range n_vertices)).map
    (fun perm => permMatrix n_vertices (buildAdj n_vertices edge_list) perm)

/-- `graph_to_canonical` (q2.py lines 36–61): the lexicographically smallest
permuted adjacency matrix over all vertex permutations. -/
def graph_to_canonical (n_vertices : Nat) (edge_list : List (Nat × Nat)) :
    List (List Nat) :=
  ((candMatrices n_vertices edge_list).foldl pickMin none).getD []

/-- `get_subgraph_edges` (q2.py lines 23–34): the edges of the host graph with
both endpoints inside the given vertex subset. -/
def get_subgraph_edges (vertex_subset : List Nat) (edges : List (Nat × Nat)) :
    List (Nat × Nat) :=
  edges.filter (fun e => decide (e.1 ∈ vertex_subset) && decide (e.2 ∈ vertex_subset))

/-- `subgraph_to_canonical` (q2.py lines 63–74): remap the subset's vertex
labels to `0..k-1` by sorted order and canonicalize. The Python vertex map is
a dict from each sorted vertex to its position; on the duplicate-free subsets
produced by `combinations` this is exactly `indexOf` into the sorted list. -/
def subgraph_to_canonical (vertices : List Nat) (edges : List (Nat × Nat)) :
    List (List Nat) :=
  let vertex_list := vertices.mergeSort (fun a b => decide (a ≤ b))
  let edge_list := edges.map (fun e => (vertex_list.indexOf e.1, vertex_list.indexOf e.2))
  graph_to_canonical vertices.length edge_list

/-- Decoding an adjacency bitmask into an edge list (q2.py lines 87–94):
bit `i*n + j` set means edge `(i, j)` is present. -/
def mask_to_edges (n mask : Nat) : List (Nat × Nat) :=
  (List.range n).flatMap (fun i =>
    (List.range n).filterMap (fun j =>
      if mask.testBit (i * n + j) then some (i, j) else none))

/-- One iteration of the mask loop in `generate_all_unique_motifs`
(q2.py lines 86–101): first-writer-wins insertion keyed by canonical form.
The Python dict is insertion ordered, modelled by appending to an
association list. -/
def motif_step (n : Nat) (tbl : List (List (List Nat) × List (Nat × Nat)))
    (mask : Nat) : List (List (List Nat) × List (Nat × Nat)) :=
  let edge_list := mask_to_edges n mask
  let canonical := graph_to_canonical n edge_list
  if tbl.any (fun x => decide (x.1 = canonical)) then tbl
  else tbl ++ [(canonical, edge_list)]

/-- The deduplicated motif dictionary after scanning every mask in
`0 .. 2^(n*n) - 1` (q2.py lines 83–101), in insertion order. -/
def motif_table (n : Nat) : List (List (List Nat) × List (Nat × Nat)) :=
  (List.range (2 ^ (n * n))).foldl (motif_step n) []

/-- The motif dictionary after processing only masks `0 .. m-1`; proof-side
device for reasoning about the mask loop one iteration at a time.
`motif_table n = motif_table_upto n (2 ^ (n * n))`. -/
def motif_table_upto (n m : Nat) : List (List (List Nat) × List (Nat × Nat)) :=
  (List.range m).foldl (motif_step n) []

/-- `generate_all_unique_motifs` (q2.py lines 76–105): the motif dictionary
sorted ascending. Python sorts the `(canonical, edges)` pairs; since the
canonical keys are pairwise distinct, sorting by key alone yields the same
list, so the comparison looks only at the first component. -/
def generate_all_unique_motifs (n : Nat) :
    List (List (List Nat) × List (Nat × Nat)) :=
  (motif_table n).mergeSort (fun a b => decide (a.1 ≤ b.1))

/-- `itertools.combinations`: all `r`-element sublists of `l`, in the same
order Python produces them (those containing the head first). -/
def combinationsL {α : Type} : Nat → List α → List (List α)
  | 0, _ => [[]]
  | _ + 1, [] => []
  | r + 1, x :: xs => ((combinationsL r xs).map (fun s => x :: s)) ++ combinationsL (r + 1) xs

/-- The occurrence count that `main` (q2.py lines 158–179) tallies for one
canonical form `c` and that the report reads back via
`motif_counts.get(c, 0)`: the number of `n`-element vertex subsets of the host
graph whose induced subgraph canonicalizes to `c`. When `n > |vertices|` the
counting loop is skipped and every count is 0. -/
def motif_count (n : Nat) (vertices : List Nat) (edges : List (Nat × Nat))
    (c : List (List Nat)) : Nat :=
  if n ≤ vertices.length then
    ((combinationsL n vertices).map
      (fun s => subgraph_to_canonical s (get_subgraph_edges s edges))).count c
  else 0

/-- The sum of the per-motif counts over the whole motif report. -/
def motif_count_total (n : Nat) (vertices : List Nat) (edges : List (Nat × Nat)) : Nat :=
  ((generate_all_unique_motifs n).map (fun m => motif_count n vertices edges m.1)).sum

/-- The entries written by `write_motifs_to_file` (q2.py lines 107–127), in
order: for each motif of `generate_all_unique_motifs`, its representative
edge list shifted to 1-indexed output and its final count. -/
def write_motifs_entries (n : Nat) (vertices : List Nat) (edges : List (Nat × Nat)) :
    List (List (Nat × Nat) × Nat) :=
  (generate_all_unique_motifs n).map (fun m =>
    (m.2.map (fun e => (e.1 + 1, e.2 + 1)), motif_count n vertices edges m.1))

/-! ### Embedding of `q1.py` -/

/-- `all_edges` in `generate_weakly_connected_graphs` (q1.py line 14):
every ordered pair `(i, j)` with `i ≠ j`, `i` outer and `j` inner. -/
def all_possible_edges (n : Nat) : List (Nat × Nat) :=
  (List.range n).flatMap (fun i =>
    ((List.range n).filter (fun j => decide (i ≠ j))).map (fun j => (i, j)))

/-- Adjacency of the underlying undirected graph: an edge in either direction. -/
def undirAdj (edges : List (Nat × Nat)) (u v : Nat) : Bool :=
  decide ((u, v) ∈ edges) || decide ((v, u) ∈ edges)

/-- One breadth-expansion step: keep every vertex already reached or adjacent
(ignoring direction) to a reached vertex. -/
def expandOnce (n : Nat) (edges : List (Nat × Nat)) (s : List Nat) : List Nat :=
  (List.range n).filter (fun v => decide (v ∈ s) || s.any (fun u => undirAdj edges u v))

/-- Vertices reachable from vertex `0` ignoring edge direction, after `k`
expansion steps. `n` steps saturate, since an undirected path in an
`n`-vertex graph needs fewer than `n` hops. -/
def wreach (n : Nat) (edges : List (Nat × Nat)) : Nat → List Nat
  | 0 => [0]
  | k + 1 => expandOnce n edges (wreach n edges k)

/-- Modelled from the spec: `networkx.is_weakly_connected` (q1.py line 24) is
an external library call; per the spec it tests that every pair of vertices is
joined by a path when edge direction is ignored. On the vertex set
`0..n-1` with `n ≥ 1` this is equivalent to all vertices being
direction-blind reachable from vertex `0`. -/
def is_weakly_connected (n : Nat) (edges : List (Nat × Nat)) : Bool :=
  (List.range n).all (fun v => decide (v ∈ wreach n edges n))

/-- Modelled from the spec: `networkx.is_isomorphic` (q1.py line 29) is an
external library call; per the spec it is an exact digraph isomorphism test —
some vertex relabeling makes the edge relations agree. Both graphs here have
node set `0..n-1`. -/
def nx_is_isomorphic (n : Nat) (e1 e2 : List (Nat × Nat)) : Bool :=
  (permsL (List.range n)).any (fun p =>
    (List.range n).all (fun u => (List.range n).all (fun v =>
      decide ((u, v) ∈ e1) == decide ((p.getD u 0, p.getD v 0) ∈ e2))))

/-- The body of the subset loop in `generate_weakly_connected_graphs`
(q1.py lines 18–34): keep a weakly connected graph unless it is isomorphic to
one already kept. -/
def wc_step (n : Nat) (graphs : List (List (Nat × Nat)))
    (edge_subset : List (Nat × Nat)) : List (List (Nat × Nat)) :=
  if is_weakly_connected n edge_subset then
    if graphs.any (fun existing => nx_is_isomorphic n edge_subset existing) then graphs
    else graphs ++ [edge_subset]
  else graphs

/-- `generate_weakly_connected_graphs` (q1.py lines 6–36): for every subset
size `r` from 1 to the number of possible edges, for every edge subset of that
size, keep it if weakly connected and new up to isomorphism. Each kept graph
has node set `0..n-1` (`add_nodes_from(range(n))`) and is represented here by
its edge list. -/
def generate_weakly_connected_graphs (n : Nat) : List (List (Nat × Nat)) :=
  ((List.range (all_possible_edges n).length).map (fun r => r + 1)).foldl
    (fun graphs r => (combinationsL r (all_possible_edges n)).foldl (wc_step n) graphs) []

/-! ### Specification-side notions used to state the claims -/

/-- Relabel every edge by the permutation list `p` (vertex `u` goes to `p[u]`). -/
def applyPerm (p : List Nat) (edges : List (Nat × Nat)) : List (Nat × Nat) :=
  edges.map (fun e => (p.getD e.1 0, p.getD e.2 0))

/-- All edges lie over the vertex range `0..n-1`. -/
def EdgesInRange (n : Nat) (edges : List (Nat × Nat)) : Prop :=
  ∀ e ∈ edges, e.1 < n ∧ e.2 < n

instance (n : Nat) (edges : List (Nat × Nat)) : Decidable (EdgesInRange n edges) := by
  unfold EdgesInRange
  infer_instance

/-- Two edge lists describe the same edge set. -/
def sameEdges (e1 e2 : List (Nat × Nat)) : Prop := ∀ x, x ∈ e1 ↔ x ∈ e2

/-- The labeled graphs `(n, e1)` and `(n, e2)` are isomorphic: some vertex
permutation carries the edge set of the first to the edge set of the second. -/
def GraphIso (n : Nat) (e1 e2 : List (Nat × Nat)) : Prop :=
  ∃ p, p.Perm (List.range n) ∧ sameEdges (applyPerm p e1) e2

/-- Shape invariant of the graphs `generate_weakly_connected_graphs` builds:
a nonempty edge list over `0..n-1` with no self-loops. -/
def GoodGraph (n : Nat) (E : List (Nat × Nat)) : Prop :=
  E ≠ [] ∧ ∀ e ∈ E, e.1 < n ∧ e.2 < n ∧ e.1 ≠ e.2

/-- One undirected step along an edge of the graph, in either direction. -/
def undirStep (edges : List (Nat × Nat)) (u v : Nat) : Prop :=
  (u, v) ∈ edges ∨ (v, u) ∈ edges

/-- Weak connectivity on the vertex set `0..n-1`: every pair of vertices is
joined by a path that ignores edge direction. -/
def WeaklyConnected (n : Nat) (edges : List (Nat × Nat)) : Prop :=
  ∀ u, u < n → ∀ v, v < n → Relation.ReflTransGen (undirStep edges) u v

/-- The edge list read off from a 0/1 matrix: the pairs `(i, j)` over
`0..n-1` whose entry is 1. -/
def matrix_edges (n : Nat) (M : List (List Nat)) : List (Nat × Nat) :=
  (List.range n).flatMap (fun i =>
    (List.range n).filterMap (fun j =>
      if entry M i j = 1 then some (i, j) else none))

/-- A number whose low `k` bits are given by the predicate `f`. Used to show
the mask loop of the motif enumerator reaches every edge set over `0..n-1`. -/
def maskOf (f : Nat → Bool) : Nat → Nat
  | 0 => 0
  | k + 1 => (if f 0 then 1 else 0) + 2 * maskOf (fun b => f (b + 1)) k

/-- The bitmask whose set bits are exactly the in-range edges of `edges`
under the `i*n + j` bit layout. -/
def edge_mask (n : Nat) (edges : List (Nat × Nat)) : Nat :=
  maskOf (fun b => decide ((b / n, b % n) ∈ edges)) (n * n)

/-! ### Matrix entry lemmas -/

theorem entry_mkMatrix {n : Nat} {f : Nat → Nat → Nat} {i j : Nat}
    (hi : i < n) (hj : j < n) : entry (mkMatrix n f) i j = f i j := by
  simp [entry, mkMatrix, List.getD_eq_getElem?_getD, List.getElem?_map,
    List.getElem?_range, hi, hj]

theorem mkMatrix_congr {n : Nat} {f g : Nat → Nat → Nat}
    (h : ∀ i < n, ∀ j < n, f i j = g i j) : mkMatrix n f = mkMatrix n g := by
  unfold mkMatrix
  refine List.map_congr_left (fun i hi => List.map_congr_left (fun j hj => ?_))
  exact h i (List.mem_range.1 hi) j (List.mem_range.1 hj)

theorem replicate_eq_mkMatrix (n : Nat) :
    List.replicate n (List.replicate n 0) = mkMatrix n (fun _ _ => 0) := by
  simp [mkMatrix, List.map_const']

theorem set_map_range {α : Type} {n v : Nat} (f : Nat → α) (x : α) :
    ((List.range n).map f).set v x
      = (List.range n).map (fun j => if j = v then x else f j) := by
  apply List.ext_getElem
  · simp
  · intro i h1 h2
    simp only [List.length_set, List.length_map, List.length_range] at h1
    rw [List.getElem_set]
    by_cases h : i = v <;> simp [h, List.getElem_map, List.getElem_range]
    · omega

theorem setEntry_mkMatrix {n u v : Nat} (g : Nat → Nat → Nat) (hu : u < n) (_hv : v < n) :
    (mkMatrix n g).set u (((mkMatrix n g).getD u []).set v 1)
      = mkMatrix n (fun i j => if i = u ∧ j = v then 1 else g i j) := by
  have hrow : (mkMatrix n g).getD u [] = (List.range n).map (g u) := by
    simp [mkMatrix, List.getD_eq_getElem?_getD, List.getElem?_map, List.getElem?_range, hu]
  rw [hrow, set_map_range, mkMatrix, set_map_range]
  refine List.map_congr_left (fun i hi => ?_)
  by_cases h : i = u
  · subst h
    simp only [if_pos rfl]
    refine List.map_congr_left (fun j hj => ?_)
    by_cases hjv : j = v <;> simp [hjv]
  · simp [h, mkMatrix]

theorem buildAdj_foldl {n : Nat} (E : List (Nat × Nat)) :
    ∀ g : Nat → Nat → Nat, EdgesInRange n E →
      E.foldl (fun adj e => adj.set e.1 ((adj.getD e.1 []).set e.2 1)) (mkMatrix n g)
        = mkMatrix n (fun i j => if (i, j) ∈ E then 1 else g i j) := by
  induction E with
  | nil =>
      intro g _
      simp only [List.foldl_nil]
      exact mkMatrix_congr (fun i _ j _ => by simp)
  | cons e E ih =>
      intro g hr
      have he := hr e (List.mem_cons_self e E)
      rw [List.foldl_cons, setEntry_mkMatrix g he.1 he.2,
        ih _ (fun x hx => hr x (List.mem_cons_of_mem _ hx))]
      refine mkMatrix_congr (fun i hi j hj => ?_)
      by_cases hmem : (i, j) ∈ E
      · simp [hmem, List.mem_cons]
      · by_cases hie : (i, j) = e
        · have : i = e.1 ∧ j = e.2 := by
            rw [Prod.ext_iff] at hie; exact hie
          simp [hmem, this, List.mem_cons, hie]
        · have : ¬(i = e.1 ∧ j = e.2) := by
            rw [Prod.ext_iff] at hie; exact hie
          simp [hmem, this, List.mem_cons, hie]

theorem buildAdj_eq {n : Nat} {E : List (Nat × Nat)} (h : EdgesInRange n E) :
    buildAdj n E = mkMatrix n (fun i j => if (i, j) ∈ E then 1 else 0) := by
  unfold buildAdj
  rw [replicate_eq_mkMatrix, buildAdj_foldl E _ h]

theorem entry_buildAdj {n : Nat} {E : List (Nat × Nat)} (h : EdgesInRange n E)
    {i j : Nat} (hi : i < n) (hj : j < n) :
    entry (buildAdj n E) i j = if (i, j) ∈ E then 1 else 0 := by
  rw [buildAdj_eq h, entry_mkMatrix hi hj]

theorem permMatrix_eq_mkMatrix (n : Nat) (adj : List (List Nat)) (p : List Nat) :
    permMatrix n adj p = mkMatrix n (fun i j => entry adj (p.getD i 0) (p.getD j 0)) := rfl

/-! ### `permsL` enumerates exactly the permutations -/

theorem mem_insertsL {α : Type} (x : α) : ∀ (p q : List α),
    q ∈ insertsL x p → q.Perm (x :: p)
  | [], q => by
      intro h
      have hq : q = [x] := by simpa [insertsL] using h
      simp [hq]
  | y :: ys, q => by
      intro h
      rcases List.mem_cons.1 h with h1 | h1
      · subst h1
        exact List.Perm.refl _
      · rcases List.mem_map.1 h1 with ⟨zs, hzs, rfl⟩
        exact ((mem_insertsL x ys zs hzs).cons y).trans (List.Perm.swap x y ys)

theorem insertsL_mem {α : Type} (x : α) : ∀ (p1 p2 : List α),
    p1 ++ x :: p2 ∈ insertsL x (p1 ++ p2)
  | [], p2 => by
      cases p2 with
      | nil => simp [insertsL]
      | cons y ys => simp [insertsL]
  | y :: p1, p2 => by
      simp only [List.cons_append, insertsL]
      exact List.mem_cons_of_mem _ (List.mem_map.2 ⟨p1 ++ x :: p2, insertsL_mem x p1 p2, rfl⟩)

theorem mem_permsL {α : Type} : ∀ (l q : List α), q ∈ permsL l ↔ q.Perm l
  | [], q => by
      simp only [permsL, List.mem_singleton]
      exact ⟨fun h => h ▸ List.Perm.refl [], fun h => h.eq_nil⟩
  | x :: xs, q => by
      simp only [permsL, List.mem_flatMap]
      constructor
      · rintro ⟨p, hp, hq⟩
        exact (mem_insertsL x p q hq).trans (((mem_permsL xs p).1 hp).cons x)
      · intro hq
        have hx : x ∈ q := hq.mem_iff.2 (List.mem_cons_self x xs)
        rcases List.append_of_mem hx with ⟨p1, p2, rfl⟩
        refine ⟨p1 ++ p2, (mem_permsL xs (p1 ++ p2)).2 ?_, insertsL_mem x p1 p2⟩
        exact (List.perm_middle.symm.trans hq).cons_inv

/-! ### The running minimum of `graph_to_canonical` -/

theorem foldl_pickMin_some (l : List (List (List Nat))) :
    ∀ b : List (List Nat), ∃ m, l.foldl pickMin (some b) = some m ∧
      (m = b ∨ m ∈ l) ∧ m ≤ b ∧ ∀ x ∈ l, m ≤ x := by
  induction l with
  | nil => exact fun b => ⟨b, rfl, Or.inl rfl, le_refl _, by simp⟩
  | cons t l ih =>
      intro b
      rcases ih (if t < b then t else b) with ⟨m, hfold, hmem, hleb, hall⟩
      have hb'b : (if t < b then t else b) ≤ b := by
        by_cases h : t < b <;> simp [h]
        exact le_of_lt h
      have hb't : (if t < b then t else b) ≤ t := by
        by_cases h : t < b <;> simp [h]
        exact le_of_not_lt h
      refine ⟨m, ?_, ?_, le_trans hleb hb'b, ?_⟩
      · have hstep : pickMin (some b) t = some (if t < b then t else b) := by
          by_cases h : t < b <;> simp [pickMin, h]
        rw [List.foldl_cons, hstep]
        exact hfold
      · rcases hmem with h | h
        · by_cases htb : t < b
          · simp [htb] at h
            exact Or.inr (h ▸ List.mem_cons_self t l)
          · simp [htb] at h
            exact Or.inl h
        · exact Or.inr (List.mem_cons_of_mem _ h)
      · intro x hx
        rcases List.mem_cons.1 hx with h | h
        · exact h ▸ le_trans hleb hb't
        · exact hall x h

theorem candMatrices_ne_nil (n : Nat) (E : List (Nat × Nat)) :
    candMatrices n E ≠ [] := by
  intro hnil
  have hmem : List.range n ∈ permsL (List.range n) :=
    (mem_permsL _ _).2 (List.Perm.refl _)
  unfold candMatrices at hnil
  rw [List.map_eq_nil_iff] at hnil
  rw [hnil] at hmem
  exact List.not_mem_nil _ hmem

theorem canonical_spec (n : Nat) (E : List (Nat × Nat)) :
    graph_to_canonical n E ∈ candMatrices n E ∧
      ∀ X ∈ candMatrices n E, graph_to_canonical n E ≤ X := by
  rcases List.exists_cons_of_ne_nil (candMatrices_ne_nil n E) with ⟨h, t, hct⟩
  rcases foldl_pickMin_some t h with ⟨m, hfold, hmem, hle, hall⟩
  have hcan : graph_to_canonical n E = m := by
    unfold graph_to_canonical
    rw [hct, List.foldl_cons]
    show (t.foldl pickMin (pickMin none h)).getD [] = m
    rw [show pickMin none h = some h from rfl, hfold]
    rfl
  rw [hcan, hct]
  constructor
  · rcases hmem with h' | h'
    · exact h' ▸ List.mem_cons_self _ _
    · exact List.mem_cons_of_mem _ h'
  · intro X hX
    rcases List.mem_cons.1 hX with h' | h'
    · exact h' ▸ hle
    · exact hall X h'

theorem canonical_eq_iff {n : Nat} {E : List (Nat × Nat)} {M : List (List Nat)} :
    graph_to_canonical n E = M ↔
      M ∈ candMatrices n E ∧ ∀ X ∈ candMatrices n E, M ≤ X := by
  constructor
  · rintro rfl; exact canonical_spec n E
  · rintro ⟨hmem, hle⟩
    have h := canonical_spec n E
    exact le_antisymm (h.2 M hmem) (hle _ h.1)

theorem canonical_congr_cands {n : Nat} {E1 E2 : List (Nat × Nat)}
    (h : ∀ M, M ∈ candMatrices n E1 ↔ M ∈ candMatrices n E2) :
    graph_to_canonical n E1 = graph_to_canonical n E2 := by
  have h2 := canonical_spec n E2
  exact canonical_eq_iff.2 ⟨(h _).2 h2.1, fun X hX => h2.2 X ((h X).1 hX)⟩

/-! ### Permutation lists -/

theorem getD_of_lt {α : Type} (l : List α) (d : α) {i : Nat} (h : i < l.length) :
    l.getD i d = l[i] := by
  rw [List.getD_eq_getElem?_getD, List.getElem?_eq_getElem h]
  rfl

theorem perm_length {n : Nat} {p : List Nat} (hp : p.Perm (List.range n)) :
    p.length = n := by
  simpa using hp.length_eq

theorem perm_getD_lt {n : Nat} {p : List Nat} (hp : p.Perm (List.range n))
    {i : Nat} (hi : i < n) : p.getD i 0 < n := by
  have hlen : i < p.length := by rw [perm_length hp]; exact hi
  rw [getD_of_lt _ _ hlen]
  exact List.mem_range.1 (hp.mem_iff.1 (List.getElem_mem hlen))

theorem perm_nodup {n : Nat} {p : List Nat} (hp : p.Perm (List.range n)) :
    p.Nodup :=
  hp.symm.nodup (List.nodup_range n)

theorem perm_getD_inj {n : Nat} {p : List Nat} (hp : p.Perm (List.range n))
    {i j : Nat} (hi : i < n) (hj : j < n) (h : p.getD i 0 = p.getD j 0) : i = j := by
  have hi' : i < p.length := by rw [perm_length hp]; exact hi
  have hj' : j < p.length := by rw [perm_length hp]; exact hj
  rw [getD_of_lt _ _ hi', getD_of_lt _ _ hj'] at h
  exact ((perm_nodup hp).getElem_inj_iff).1 h

theorem indexOf_lt_of_perm {n : Nat} {p : List Nat} (hp : p.Perm (List.range n))
    {a : Nat} (ha : a < n) : p.indexOf a < n := by
  rw [← perm_length hp]
  exact List.indexOf_lt_length.2 (hp.mem_iff.2 (List.mem_range.2 ha))

theorem getD_invPerm {n : Nat} (p : List Nat) {a : Nat} (ha : a < n) :
    (invPerm n p).getD a 0 = p.indexOf a := by
  simp [invPerm, List.getD_eq_getElem?_getD, List.getElem?_map, List.getElem?_range, ha]

theorem perm_getD_invPerm {n : Nat} {p : List Nat} (hp : p.Perm (List.range n))
    {a : Nat} (ha : a < n) : p.getD ((invPerm n p).getD a 0) 0 = a := by
  rw [getD_invPerm p ha]
  have hidx : p.indexOf a < p.length :=
    List.indexOf_lt_length.2 (hp.mem_iff.2 (List.mem_range.2 ha))
  rw [getD_of_lt _ _ hidx]
  exact List.getElem_indexOf hidx

theorem invPerm_getD_perm {n : Nat} {p : List Nat} (hp : p.Perm (List.range n))
    {i : Nat} (hi : i < n) : (invPerm n p).getD (p.getD i 0) 0 = i := by
  have hplt := perm_getD_lt hp hi
  rw [getD_invPerm p hplt]
  have hlen : i < p.length := by rw [perm_length hp]; exact hi
  rw [getD_of_lt _ _ hlen]
  exact List.indexOf_getElem (perm_nodup hp) i hlen

theorem invPerm_perm {n : Nat} {p : List Nat} (hp : p.Perm (List.range n)) :
    (invPerm n p).Perm (List.range n) := by
  have hlen : (invPerm n p).length = n := by simp [invPerm]
  have hsub : invPerm n p ⊆ List.range n := by
    intro x hx
    rcases List.mem_map.1 hx with ⟨a, ha, rfl⟩
    exact List.mem_range.2 (indexOf_lt_of_perm hp (List.mem_range.1 ha))
  have hnd : (invPerm n p).Nodup := by
    refine List.Nodup.map_on ?_ (List.nodup_range n)
    intro a ha b hb hab
    have haidx : p.indexOf a < p.length :=
      List.indexOf_lt_length.2 (hp.mem_iff.2 ha)
    have hbidx : p.indexOf b < p.length :=
      List.indexOf_lt_length.2 (hp.mem_iff.2 hb)
    have h1 : p[p.indexOf a] = a := List.getElem_indexOf haidx
    have h2 : p[p.indexOf b] = b := List.getElem_indexOf hbidx
    rw [← h1, ← h2]
    congr 1
  exact (List.subperm_of_subset hnd hsub).perm_of_length_le (by rw [hlen]; simp)

theorem range_map_getD {n : Nat} {p : List Nat} (hlen : p.length = n) :
    (List.range n).map (fun i => p.getD i 0) = p := by
  apply List.ext_getElem
  · simp [hlen]
  · intro i h1 h2
    simp only [List.getElem_map, List.getElem_range]
    exact getD_of_lt _ _ h2

theorem map_getD_perm {n : Nat} {p q : List Nat} (hp : p.Perm (List.range n))
    (hq : q.Perm (List.range n)) :
    (q.map (fun i => p.getD i 0)).Perm (List.range n) := by
  have h1 : (q.map (fun i => p.getD i 0)).Perm ((List.range n).map (fun i => p.getD i 0)) :=
    hq.map _
  rw [range_map_getD (perm_length hp)] at h1
  exact h1.trans hp

theorem getD_map_getD {n : Nat} {p q : List Nat} (hq : q.Perm (List.range n))
    {i : Nat} (hi : i < n) :
    (q.map (fun x => p.getD x 0)).getD i 0 = p.getD (q.getD i 0) 0 := by
  have hlen : i < q.length := by rw [perm_length hq]; exact hi
  have hlenm : i < (q.map (fun x => p.getD x 0)).length := by simpa using hlen
  rw [getD_of_lt _ _ hlenm, List.getElem_map, getD_of_lt _ _ hlen]

/-! ### Candidate matrices under composition and relabeling -/

theorem permMatrix_comp {n : Nat} (A : List (List Nat)) {p q : List Nat}
    (_hp : p.Perm (List.range n)) (hq : q.Perm (List.range n)) :
    permMatrix n (permMatrix n A p) q = permMatrix n A (q.map (fun i => p.getD i 0)) := by
  rw [permMatrix_eq_mkMatrix, permMatrix_eq_mkMatrix n A p,
    permMatrix_eq_mkMatrix n A (q.map (fun i => p.getD i 0))]
  apply mkMatrix_congr
  intro i hi j hj
  rw [entry_mkMatrix (perm_getD_lt hq hi) (perm_getD_lt hq hj),
    getD_map_getD hq hi, getD_map_getD hq hj]

theorem mem_candMatrices {n : Nat} {E : List (Nat × Nat)} {M : List (List Nat)} :
    M ∈ candMatrices n E ↔
      ∃ p, p.Perm (List.range n) ∧ M = permMatrix n (buildAdj n E) p := by
  unfold candMatrices
  rw [List.mem_map]
  constructor
  · rintro ⟨p, hp, rfl⟩
    exact ⟨p, (mem_permsL _ _).1 hp, rfl⟩
  · rintro ⟨p, hp, rfl⟩
    exact ⟨p, (mem_permsL _ _).2 hp, rfl⟩

/-! ### Canonical form depends only on the edge set -/

theorem edgesInRange_of_sameEdges {n : Nat} {E1 E2 : List (Nat × Nat)}
    (h1 : EdgesInRange n E1) (h : sameEdges E1 E2) : EdgesInRange n E2 :=
  fun e he => h1 e ((h e).2 he)

theorem buildAdj_congr {n : Nat} {E1 E2 : List (Nat × Nat)}
    (h1 : EdgesInRange n E1) (h : sameEdges E1 E2) :
    buildAdj n E1 = buildAdj n E2 := by
  rw [buildAdj_eq h1, buildAdj_eq (edgesInRange_of_sameEdges h1 h)]
  apply mkMatrix_congr
  intro i _ j _
  by_cases hm : (i, j) ∈ E1
  · simp [hm, (h _).1 hm]
  · have hm2 : (i, j) ∉ E2 := fun hc => hm ((h _).2 hc)
    simp [hm, hm2]

theorem canonical_congr {n : Nat} {E1 E2 : List (Nat × Nat)}
    (h1 : EdgesInRange n E1) (h : sameEdges E1 E2) :
    graph_to_canonical n E1 = graph_to_canonical n E2 := by
  apply canonical_congr_cands
  intro M
  unfold candMatrices
  rw [buildAdj_congr h1 h]

/-! ### Canonical form is invariant under relabeling -/

theorem mem_applyPerm {p : List Nat} {E : List (Nat × Nat)} {e : Nat × Nat} :
    e ∈ applyPerm p E ↔ ∃ x ∈ E, p.getD x.1 0 = e.1 ∧ p.getD x.2 0 = e.2 := by
  unfold applyPerm
  rw [List.mem_map]
  constructor
  · rintro ⟨x, hx, rfl⟩
    exact ⟨x, hx, rfl, rfl⟩
  · rintro ⟨x, hx, h1, h2⟩
    refine ⟨x, hx, ?_⟩
    rw [Prod.ext_iff]
    exact ⟨h1, h2⟩

theorem applyPerm_inRange {n : Nat} {p : List Nat} {E : List (Nat × Nat)}
    (hp : p.Perm (List.range n)) (hE : EdgesInRange n E) :
    EdgesInRange n (applyPerm p E) := by
  intro e he
  rcases List.mem_map.1 he with ⟨x, hx, rfl⟩
  exact ⟨perm_getD_lt hp (hE x hx).1, perm_getD_lt hp (hE x hx).2⟩

theorem mem_applyPerm_iff_inv {n : Nat} {p : List Nat} {E : List (Nat × Nat)}
    (hp : p.Perm (List.range n)) (hE : EdgesInRange n E)
    {a b : Nat} (ha : a < n) (hb : b < n) :
    (a, b) ∈ applyPerm p E ↔ ((invPerm n p).getD a 0, (invPerm n p).getD b 0) ∈ E := by
  constructor
  · intro h
    rcases mem_applyPerm.1 h with ⟨x, hx, h1, h2⟩
    have ha2 : p.getD x.1 0 = a := h1
    have hb2 : p.getD x.2 0 = b := h2
    have e1 : (invPerm n p).getD a 0 = x.1 := by
      rw [← ha2]; exact invPerm_getD_perm hp (hE x hx).1
    have e2 : (invPerm n p).getD b 0 = x.2 := by
      rw [← hb2]; exact invPerm_getD_perm hp (hE x hx).2
    rw [e1, e2]
    simpa using hx
  · intro h
    exact mem_applyPerm.2 ⟨_, h, perm_getD_invPerm hp ha, perm_getD_invPerm hp hb⟩

theorem buildAdj_applyPerm {n : Nat} {p : List Nat} {E : List (Nat × Nat)}
    (hp : p.Perm (List.range n)) (hE : EdgesInRange n E) :
    buildAdj n (applyPerm p E) = permMatrix n (buildAdj n E) (invPerm n p) := by
  rw [buildAdj_eq (applyPerm_inRange hp hE), permMatrix_eq_mkMatrix, buildAdj_eq hE]
  apply mkMatrix_congr
  intro a ha b hb
  rw [entry_mkMatrix (perm_getD_lt (invPerm_perm hp) ha) (perm_getD_lt (invPerm_perm hp) hb)]
  by_cases hm : ((invPerm n p).getD a 0, (invPerm n p).getD b 0) ∈ E
  · rw [if_pos hm, if_pos ((mem_applyPerm_iff_inv hp hE ha hb).2 hm)]
  · rw [if_neg hm, if_neg (fun hc => hm ((mem_applyPerm_iff_inv hp hE ha hb).1 hc))]

theorem map_getD_comp_inv {n : Nat} {p r : List Nat} (hp : p.Perm (List.range n))
    (hr : r.Perm (List.range n)) :
    (r.map (fun i => p.getD i 0)).map (fun i => (invPerm n p).getD i 0) = r := by
  rw [List.map_map]
  have h : r.map ((fun i => (invPerm n p).getD i 0) ∘ fun i => p.getD i 0) = r.map id := by
    apply List.map_congr_left
    intro x hx
    exact invPerm_getD_perm hp (List.mem_range.1 (hr.mem_iff.1 hx))
  rw [h, List.map_id]

theorem mem_cands_applyPerm {n : Nat} {p : List Nat} {E : List (Nat × Nat)}
    (hp : p.Perm (List.range n)) (hE : EdgesInRange n E) (M : List (List Nat)) :
    M ∈ candMatrices n (applyPerm p E) ↔ M ∈ candMatrices n E := by
  rw [mem_candMatrices, mem_candMatrices]
  constructor
  · rintro ⟨q, hq, rfl⟩
    refine ⟨q.map (fun i => (invPerm n p).getD i 0),
      map_getD_perm (invPerm_perm hp) hq, ?_⟩
    rw [buildAdj_applyPerm hp hE, permMatrix_comp _ (invPerm_perm hp) hq]
  · rintro ⟨r, hr, rfl⟩
    refine ⟨r.map (fun i => p.getD i 0), map_getD_perm hp hr, ?_⟩
    rw [buildAdj_applyPerm hp hE,
      permMatrix_comp _ (invPerm_perm hp) (map_getD_perm hp hr),
      map_getD_comp_inv hp hr]

theorem canonical_applyPerm {n : Nat} {p : List Nat} {E : List (Nat × Nat)}
    (hp : p.Perm (List.range n)) (hE : EdgesInRange n E) :
    graph_to_canonical n (applyPerm p E) = graph_to_canonical n E :=
  canonical_congr_cands (mem_cands_applyPerm hp hE)

/-! ### Canonical forms agree exactly on isomorphism classes -/

theorem entry_buildAdj_one {n : Nat} {E : List (Nat × Nat)} (h : EdgesInRange n E)
    {a b : Nat} (ha : a < n) (hb : b < n) :
    entry (buildAdj n E) a b = 1 ↔ (a, b) ∈ E := by
  rw [entry_buildAdj h ha hb]
  by_cases hm : (a, b) ∈ E <;> simp [hm]

theorem canonical_eq_of_iso {n : Nat} {E1 E2 : List (Nat × Nat)}
    (h1 : EdgesInRange n E1) (hiso : GraphIso n E1 E2) :
    graph_to_canonical n E1 = graph_to_canonical n E2 := by
  rcases hiso with ⟨p, hp, hsame⟩
  rw [← canonical_applyPerm hp h1]
  exact canonical_congr (applyPerm_inRange hp h1) hsame

theorem iso_of_canonical_eq {n : Nat} {E1 E2 : List (Nat × Nat)}
    (h1 : EdgesInRange n E1) (h2 : EdgesInRange n E2)
    (heq : graph_to_canonical n E1 = graph_to_canonical n E2) :
    GraphIso n E1 E2 := by
  rcases mem_candMatrices.1 (canonical_spec n E1).1 with ⟨p, hp, hpeq⟩
  rcases mem_candMatrices.1 (canonical_spec n E2).1 with ⟨q, hq, hqeq⟩
  have hmeq : permMatrix n (buildAdj n E1) p = permMatrix n (buildAdj n E2) q := by
    rw [← hpeq, ← hqeq, heq]
  rw [permMatrix_eq_mkMatrix, permMatrix_eq_mkMatrix] at hmeq
  have hent : ∀ i, i < n → ∀ j, j < n →
      entry (buildAdj n E1) (p.getD i 0) (p.getD j 0)
        = entry (buildAdj n E2) (q.getD i 0) (q.getD j 0) := by
    intro i hi j hj
    have hcongr := congrArg (fun M => entry M i j) hmeq
    simpa [entry_mkMatrix hi hj] using hcongr
  refine ⟨(invPerm n p).map (fun i => q.getD i 0),
    map_getD_perm hq (invPerm_perm hp), ?_⟩
  have hpi : ∀ a, a < n →
      ((invPerm n p).map (fun i => q.getD i 0)).getD a 0
        = q.getD ((invPerm n p).getD a 0) 0 :=
    fun a ha => getD_map_getD (invPerm_perm hp) ha
  intro x
  constructor
  · intro hx
    rcases mem_applyPerm.1 hx with ⟨e, he, hx1, hx2⟩
    have he1 := (h1 e he).1
    have he2 := (h1 e he).2
    have hq1 : x.1 = q.getD ((invPerm n p).getD e.1 0) 0 := by
      rw [← hx1, hpi e.1 he1]
    have hq2 : x.2 = q.getD ((invPerm n p).getD e.2 0) 0 := by
      rw [← hx2, hpi e.2 he2]
    have hiv1 := perm_getD_lt (invPerm_perm hp) he1
    have hiv2 := perm_getD_lt (invPerm_perm hp) he2
    have hx12 : x = (x.1, x.2) := rfl
    rw [hx12, hq1, hq2]
    rw [← entry_buildAdj_one h2 (perm_getD_lt hq hiv1) (perm_getD_lt hq hiv2)]
    rw [← hent _ hiv1 _ hiv2]
    rw [perm_getD_invPerm hp he1, perm_getD_invPerm hp he2]
    rw [entry_buildAdj_one h1 he1 he2]
    simpa using he
  · intro hx
    have hx1 := (h2 x hx).1
    have hx2 := (h2 x hx).2
    have hivq1 := perm_getD_lt (invPerm_perm hq) hx1
    have hivq2 := perm_getD_lt (invPerm_perm hq) hx2
    have hu1 := perm_getD_lt hp hivq1
    have hu2 := perm_getD_lt hp hivq2
    have hmem : (p.getD ((invPerm n q).getD x.1 0) 0,
        p.getD ((invPerm n q).getD x.2 0) 0) ∈ E1 := by
      rw [← entry_buildAdj_one h1 hu1 hu2, hent _ hivq1 _ hivq2,
        perm_getD_invPerm hq hx1, perm_getD_invPerm hq hx2,
        entry_buildAdj_one h2 hx1 hx2]
      simpa using hx
    refine mem_applyPerm.2 ⟨_, hmem, ?_, ?_⟩
    · show ((invPerm n p).map (fun i => q.getD i 0)).getD
        (p.getD ((invPerm n q).getD x.1 0) 0) 0 = x.1
      rw [hpi _ hu1, invPerm_getD_perm hp hivq1, perm_getD_invPerm hq hx1]
    · show ((invPerm n p).map (fun i => q.getD i 0)).getD
        (p.getD ((invPerm n q).getD x.2 0) 0) 0 = x.2
      rw [hpi _ hu2, invPerm_getD_perm hp hivq2, perm_getD_invPerm hq hx2]

theorem canonical_eq_iff_iso {n : Nat} {E1 E2 : List (Nat × Nat)}
    (h1 : EdgesInRange n E1) (h2 : EdgesInRange n E2) :
    graph_to_canonical n E1 = graph_to_canonical n E2 ↔ GraphIso n E1 E2 :=
  ⟨iso_of_canonical_eq h1 h2, canonical_eq_of_iso h1⟩

theorem graphIso_symm {n : Nat} {E1 E2 : List (Nat × Nat)}
    (h1 : EdgesInRange n E1) (h2 : EdgesInRange n E2)
    (h : GraphIso n E1 E2) : GraphIso n E2 E1 :=
  iso_of_canonical_eq h2 h1 (canonical_eq_of_iso h1 h).symm

/-! ### Bitmask decoding reaches every edge set over `0..n-1` -/

theorem testBit_maskOf (k : Nat) : ∀ (f : Nat → Bool) (b : Nat),
    (maskOf f k).testBit b = (decide (b < k) && f b) := by
  induction k with
  | zero => intro f b; simp [maskOf, Nat.zero_testBit]
  | succ k ih =>
      intro f b
      have hm : maskOf f (k + 1) = (if f 0 then 1 else 0) + 2 * maskOf (fun i => f (i + 1)) k := rfl
      cases b with
      | zero =>
          rw [Nat.testBit_zero, hm]
          by_cases h : f 0 <;> simp [h]
      | succ b =>
          rw [Nat.testBit_succ, hm]
          have hdiv : ((if f 0 then 1 else 0) + 2 * maskOf (fun i => f (i + 1)) k) / 2
              = maskOf (fun i => f (i + 1)) k := by
            by_cases h : f 0 <;> simp [h]
            omega
          rw [hdiv, ih]
          simp [Nat.succ_lt_succ_iff]

theorem maskOf_lt (k : Nat) : ∀ f : Nat → Bool, maskOf f k < 2 ^ k := by
  induction k with
  | zero => intro f; simp [maskOf]
  | succ k ih =>
      intro f
      have h1 := ih (fun i => f (i + 1))
      have h2 : 2 ^ (k + 1) = 2 * 2 ^ k := by ring
      have hm : maskOf f (k + 1) = (if f 0 then 1 else 0) + 2 * maskOf (fun i => f (i + 1)) k := rfl
      rw [hm]
      by_cases h : f 0 <;> simp [h] <;> omega

theorem mem_mask_to_edges {n mask : Nat} {e : Nat × Nat} :
    e ∈ mask_to_edges n mask ↔
      e.1 < n ∧ e.2 < n ∧ mask.testBit (e.1 * n + e.2) = true := by
  unfold mask_to_edges
  rw [List.mem_flatMap]
  constructor
  · rintro ⟨i, hi, hmem⟩
    rcases List.mem_filterMap.1 hmem with ⟨j, hj, hfj⟩
    by_cases h : mask.testBit (i * n + j)
    · rw [if_pos h] at hfj
      injection hfj with hfj
      subst hfj
      exact ⟨List.mem_range.1 hi, List.mem_range.1 hj, h⟩
    · rw [if_neg h] at hfj
      exact absurd hfj (Option.noConfusion)
  · rintro ⟨h1, h2, h3⟩
    refine ⟨e.1, List.mem_range.2 h1, List.mem_filterMap.2 ⟨e.2, List.mem_range.2 h2, ?_⟩⟩
    rw [if_pos h3]

theorem mask_to_edges_inRange (n mask : Nat) : EdgesInRange n (mask_to_edges n mask) :=
  fun _ he => ⟨(mem_mask_to_edges.1 he).1, (mem_mask_to_edges.1 he).2.1⟩

theorem edge_mask_lt (n : Nat) (E : List (Nat × Nat)) : edge_mask n E < 2 ^ (n * n) :=
  maskOf_lt (n * n) _

theorem bit_index_lt {n a b : Nat} (ha : a < n) (hb : b < n) : a * n + b < n * n := by
  have h1 : a + 1 ≤ n := ha
  calc a * n + b < a * n + n := by omega
    _ = (a + 1) * n := by ring
    _ ≤ n * n := Nat.mul_le_mul_right n h1

theorem testBit_edge_mask {n : Nat} {E : List (Nat × Nat)} {a b : Nat}
    (ha : a < n) (hb : b < n) :
    (edge_mask n E).testBit (a * n + b) = decide ((a, b) ∈ E) := by
  unfold edge_mask
  rw [testBit_maskOf]
  have hlt : a * n + b < n * n := bit_index_lt ha hb
  have hn : 0 < n := Nat.lt_of_le_of_lt (Nat.zero_le a) ha
  have hdiv : (a * n + b) / n = a := by
    rw [Nat.mul_comm a n, Nat.mul_add_div hn, Nat.div_eq_of_lt hb, Nat.add_zero]
  have hmod : (a * n + b) % n = b := by
    rw [Nat.mul_comm a n, Nat.mul_add_mod, Nat.mod_eq_of_lt hb]
  rw [hdiv, hmod]
  simp [hlt]

theorem sameEdges_mask_edge_mask {n : Nat} {E : List (Nat × Nat)}
    (hE : EdgesInRange n E) : sameEdges (mask_to_edges n (edge_mask n E)) E := by
  intro x
  rw [mem_mask_to_edges]
  constructor
  · rintro ⟨h1, h2, h3⟩
    rw [testBit_edge_mask h1 h2] at h3
    simpa using of_decide_eq_true h3
  · intro hx
    have h1 := (hE x hx).1
    have h2 := (hE x hx).2
    refine ⟨h1, h2, ?_⟩
    rw [testBit_edge_mask h1 h2]
    exact decide_eq_true (by simpa using hx)

theorem canonical_edge_mask {n : Nat} {E : List (Nat × Nat)} (hE : EdgesInRange n E) :
    graph_to_canonical n (mask_to_edges n (edge_mask n E)) = graph_to_canonical n E :=
  canonical_congr (mask_to_edges_inRange n (edge_mask n E)) (sameEdges_mask_edge_mask hE)

/-! ### Invariants of the motif dictionary -/

theorem motif_table_eq_upto (n : Nat) : motif_table n = motif_table_upto n (2 ^ (n * n)) := rfl

theorem motif_step_eq (n : Nat) (t : List (List (List Nat) × List (Nat × Nat))) (m : Nat) :
    motif_step n t m =
      if t.any (fun x => decide (x.1 = graph_to_canonical n (mask_to_edges n m))) then t
      else t ++ [(graph_to_canonical n (mask_to_edges n m), mask_to_edges n m)] := rfl

theorem motif_table_upto_succ (n m : Nat) :
    motif_table_upto n (m + 1) = motif_step n (motif_table_upto n m) m := by
  unfold motif_table_upto
  rw [List.range_succ, List.foldl_append, List.foldl_cons, List.foldl_nil]

theorem motif_table_upto_inv (n : Nat) (m : Nat) :
    ((motif_table_upto n m).map Prod.fst).Nodup ∧
    (∀ ce ∈ motif_table_upto n m, ∃ i, i < m ∧ ce.2 = mask_to_edges n i ∧
      ce.1 = graph_to_canonical n (mask_to_edges n i) ∧
      ∀ j, j < m → graph_to_canonical n (mask_to_edges n j) = ce.1 → i ≤ j) ∧
    (∀ i, i < m → ∃ e, (graph_to_canonical n (mask_to_edges n i), e) ∈ motif_table_upto n m) := by
  induction m with
  | zero => refine ⟨?_, ?_, ?_⟩ <;> simp [motif_table_upto]
  | succ m ih =>
      obtain ⟨hnd, hrep, hcomp⟩ := ih
      rw [motif_table_upto_succ, motif_step_eq]
      set t := motif_table_upto n m with ht
      set c := graph_to_canonical n (mask_to_edges n m) with hc
      by_cases hpresent : t.any (fun x => decide (x.1 = c)) = true
      · rw [if_pos hpresent]
        refine ⟨hnd, ?_, ?_⟩
        · intro ce hce
          rcases hrep ce hce with ⟨i, hi, h1, h2, h3⟩
          refine ⟨i, Nat.lt_succ_of_lt hi, h1, h2, fun j hj hcj => ?_⟩
          by_cases hj' : j < m
          · exact h3 j hj' hcj
          · omega
        · intro i hi
          by_cases hi' : i < m
          · exact hcomp i hi'
          · have him : i = m := by omega
            subst him
            rcases List.any_eq_true.1 hpresent with ⟨x, hx, hxc⟩
            have hx1 : x.1 = c := of_decide_eq_true hxc
            refine ⟨x.2, ?_⟩
            rw [← hc, ← hx1]
            simpa using hx
      · rw [if_neg hpresent]
        have hnotin : c ∉ t.map Prod.fst := by
          intro hcmem
          rcases List.mem_map.1 hcmem with ⟨x, hx, hx1⟩
          exact hpresent (List.any_eq_true.2 ⟨x, hx, decide_eq_true hx1⟩)
        refine ⟨?_, ?_, ?_⟩
        · rw [List.map_append]
          refine List.Nodup.append hnd (by simp) ?_
          intro a ha hb
          have hab : a = c := by simpa using hb
          subst hab
          exact hnotin ha
        · intro ce hce
          rcases List.mem_append.1 hce with hce' | hce'
          · rcases hrep ce hce' with ⟨i, hi, h1, h2, h3⟩
            refine ⟨i, Nat.lt_succ_of_lt hi, h1, h2, fun j hj hcj => ?_⟩
            by_cases hj' : j < m
            · exact h3 j hj' hcj
            · omega
          · have hce2 : ce = (c, mask_to_edges n m) := by simpa using hce'
            subst hce2
            refine ⟨m, Nat.lt_succ_self m, rfl, hc, fun j hj hcj => ?_⟩
            have hcj2 : graph_to_canonical n (mask_to_edges n j) = c := hcj
            by_cases hj' : j < m
            · exfalso
              rcases hcomp j hj' with ⟨e, he⟩
              apply hnotin
              rw [← hcj2]
              exact List.mem_map.2 ⟨_, he, rfl⟩
            · omega
        · intro i hi
          by_cases hi' : i < m
          · rcases hcomp i hi' with ⟨e, he⟩
            exact ⟨e, List.mem_append_left _ he⟩
          · have him : i = m := by omega
            subst him
            exact ⟨mask_to_edges n i, List.mem_append_right _ (by simp [hc])⟩

theorem motif_table_keys_nodup (n : Nat) : ((motif_table n).map Prod.fst).Nodup := by
  rw [motif_table_eq_upto]
  exact (motif_table_upto_inv n (2 ^ (n * n))).1

theorem motif_table_rep (n : Nat) {ce : List (List Nat) × List (Nat × Nat)}
    (h : ce ∈ motif_table n) :
    ∃ i, i < 2 ^ (n * n) ∧ ce.2 = mask_to_edges n i ∧
      ce.1 = graph_to_canonical n (mask_to_edges n i) ∧
      ∀ j, j < 2 ^ (n * n) → graph_to_canonical n (mask_to_edges n j) = ce.1 → i ≤ j := by
  rw [motif_table_eq_upto] at h
  exact (motif_table_upto_inv n (2 ^ (n * n))).2.1 ce h

theorem motif_table_complete (n : Nat) {E : List (Nat × Nat)}
    (hE : EdgesInRange n E) :
    ∃ e, (graph_to_canonical n E, e) ∈ motif_table n := by
  have h := (motif_table_upto_inv n (2 ^ (n * n))).2.2 (edge_mask n E) (edge_mask_lt n E)
  rw [← motif_table_eq_upto, canonical_edge_mask hE] at h
  exact h

/-! ### The sorted motif list -/

theorem generate_motifs_perm (n : Nat) :
    (generate_all_unique_motifs n).Perm (motif_table n) :=
  List.mergeSort_perm (motif_table n) _

theorem generate_motifs_keys_nodup (n : Nat) :
    ((generate_all_unique_motifs n).map Prod.fst).Nodup :=
  (((generate_motifs_perm n).map Prod.fst).symm).nodup (motif_table_keys_nodup n)

theorem generate_motifs_sorted (n : Nat) :
    (generate_all_unique_motifs n).Pairwise (fun a b => a.1 ≤ b.1) := by
  have h := @List.sorted_mergeSort (List (List Nat) × List (Nat × Nat))
    (fun a b => decide (a.1 ≤ b.1))
    (fun a b c hab hbc => decide_eq_true
      (le_trans (of_decide_eq_true hab) (of_decide_eq_true hbc)))
    (fun a b => by
      rcases le_total a.1 b.1 with h | h
      · simp [h]
      · simp [h])
    (motif_table n)
  exact h.imp (fun hab => of_decide_eq_true hab)

theorem generate_motifs_sorted_strict (n : Nat) :
    (generate_all_unique_motifs n).Pairwise (fun a b => a.1 < b.1) := by
  have hne : (generate_all_unique_motifs n).Pairwise (fun a b => a.1 ≠ b.1) :=
    List.pairwise_map.1 (generate_motifs_keys_nodup n)
  exact ((generate_motifs_sorted n).and hne).imp
    (fun hab => lt_of_le_of_ne hab.1 hab.2)

theorem generate_motifs_rep (n : Nat) {ce : List (List Nat) × List (Nat × Nat)}
    (h : ce ∈ generate_all_unique_motifs n) :
    ∃ i, i < 2 ^ (n * n) ∧ ce.2 = mask_to_edges n i ∧
      ce.1 = graph_to_canonical n (mask_to_edges n i) ∧
      ∀ j, j < 2 ^ (n * n) → graph_to_canonical n (mask_to_edges n j) = ce.1 → i ≤ j :=
  motif_table_rep n ((generate_motifs_perm n).mem_iff.1 h)

theorem generate_motifs_complete (n : Nat) {E : List (Nat × Nat)}
    (hE : EdgesInRange n E) :
    ∃ e, (graph_to_canonical n E, e) ∈ generate_all_unique_motifs n := by
  rcases motif_table_complete n hE with ⟨e, he⟩
  exact ⟨e, (generate_motifs_perm n).mem_iff.2 he⟩

/-! ### Counting: the motif counts sum to the number of vertex subsets -/

theorem sum_map_add {α : Type} (l : List α) (f g : α → Nat) :
    (l.map (fun a => f a + g a)).sum = (l.map f).sum + (l.map g).sum := by
  induction l with
  | nil => simp
  | cons x l ih => simp [ih]; omega

theorem sum_map_zero {α : Type} (ks : List α) (f : α → Nat)
    (h : ∀ k ∈ ks, f k = 0) : (ks.map f).sum = 0 := by
  induction ks with
  | nil => rfl
  | cons k ks ih =>
      simp [h k (List.mem_cons_self k ks), ih (fun a ha => h a (List.mem_cons_of_mem _ ha))]

theorem sum_map_indicator {α : Type} [BEq α] [LawfulBEq α] (ks : List α) (x : α)
    (hnd : ks.Nodup) (hx : x ∈ ks) :
    (ks.map (fun k => if x == k then 1 else 0)).sum = 1 := by
  induction ks with
  | nil => cases hx
  | cons k ks ih =>
      rcases List.mem_cons.1 hx with h | h
      · subst h
        have hnotin : x ∉ ks := (List.nodup_cons.1 hnd).1
        have hzero : (ks.map (fun k => if x == k then 1 else 0)).sum = 0 :=
          sum_map_zero ks _ (fun k hk => by
            have hne : x ≠ k := fun hcontra => hnotin (hcontra ▸ hk)
            simp [beq_iff_eq, hne])
        simp [hzero]
      · have hxk : x ≠ k := fun hcontra => (List.nodup_cons.1 hnd).1 (hcontra ▸ h)
        simp [beq_iff_eq, hxk, ih (List.nodup_cons.1 hnd).2 h]

theorem sum_counts_eq_length {α : Type} [BEq α] [LawfulBEq α] (ks : List α) :
    ∀ xs : List α, ks.Nodup → (∀ x ∈ xs, x ∈ ks) →
      (ks.map (fun k => xs.count k)).sum = xs.length := by
  intro xs
  induction xs with
  | nil => intro _ _; simp
  | cons x xs ih =>
      intro hnd hmem
      have hmap : ks.map (fun k => (x :: xs).count k)
          = ks.map (fun k => xs.count k + (if x == k then 1 else 0)) :=
        List.map_congr_left (fun k _ => List.count_cons k x xs)
      rw [hmap, sum_map_add, ih hnd (fun y hy => hmem y (List.mem_cons_of_mem _ hy)),
        sum_map_indicator ks x hnd (hmem x (List.mem_cons_self x xs))]
      simp

theorem combinationsL_length {α : Type} : ∀ (r : Nat) (l : List α),
    (combinationsL r l).length = Nat.choose l.length r
  | 0, _ => by simp [combinationsL]
  | r + 1, [] => by simp [combinationsL]
  | r + 1, x :: xs => by
      simp only [combinationsL, List.length_append, List.length_map,
        combinationsL_length r xs, combinationsL_length (r + 1) xs, List.length_cons]
      rw [Nat.choose_succ_succ]

theorem combinationsL_zero {α : Type} (l : List α) : combinationsL 0 l = [[]] := by
  cases l <;> rfl

theorem combinationsL_mem_length {α : Type} : ∀ (r : Nat) (l s : List α),
    s ∈ combinationsL r l → s.length = r
  | 0, l, s => by
      intro h
      simp only [combinationsL, List.mem_singleton] at h
      simp [h]
  | r + 1, [], s => by
      intro h
      simp [combinationsL] at h
  | r + 1, x :: xs, s => by
      intro h
      rcases List.mem_append.1 h with h2 | h2
      · rcases List.mem_map.1 h2 with ⟨t, ht, rfl⟩
        simp [combinationsL_mem_length r xs t ht]
      · exact combinationsL_mem_length (r + 1) xs s h2

theorem combinationsL_mem_subset {α : Type} : ∀ (r : Nat) (l s : List α),
    s ∈ combinationsL r l → ∀ x ∈ s, x ∈ l
  | 0, l, s => by
      intro h x hx
      simp only [combinationsL, List.mem_singleton] at h
      subst h
      cases hx
  | r + 1, [], s => by
      intro h
      simp [combinationsL] at h
  | r + 1, y :: ys, s => by
      intro h x hx
      rcases List.mem_append.1 h with h2 | h2
      · rcases List.mem_map.1 h2 with ⟨t, ht, rfl⟩
        rcases List.mem_cons.1 hx with h3 | h3
        · exact h3 ▸ List.mem_cons_self y ys
        · exact List.mem_cons_of_mem _ (combinationsL_mem_subset r ys t ht x h3)
      · exact List.mem_cons_of_mem _ (combinationsL_mem_subset (r + 1) ys s h2 x hx)

theorem subgraph_to_canonical_eq (S : List Nat) (E : List (Nat × Nat)) :
    subgraph_to_canonical S E = graph_to_canonical S.length
      (E.map (fun e => ((S.mergeSort (fun a b => decide (a ≤ b))).indexOf e.1,
                        (S.mergeSort (fun a b => decide (a ≤ b))).indexOf e.2))) := rfl

theorem mem_get_subgraph_edges {S : List Nat} {edges : List (Nat × Nat)}
    {e : Nat × Nat} (he : e ∈ get_subgraph_edges S edges) :
    e ∈ edges ∧ e.1 ∈ S ∧ e.2 ∈ S := by
  have h := List.mem_filter.1 he
  have h2 := h.2
  rw [Bool.and_eq_true] at h2
  exact ⟨h.1, of_decide_eq_true h2.1, of_decide_eq_true h2.2⟩

theorem subgraph_canonical_edges_inRange (S : List Nat) (edges : List (Nat × Nat)) :
    EdgesInRange S.length
      ((get_subgraph_edges S edges).map
        (fun e => ((S.mergeSort (fun a b => decide (a ≤ b))).indexOf e.1,
                   (S.mergeSort (fun a b => decide (a ≤ b))).indexOf e.2))) := by
  intro e he
  rcases List.mem_map.1 he with ⟨x, hx, rfl⟩
  rcases mem_get_subgraph_edges hx with ⟨_, hx1, hx2⟩
  have hperm := List.mergeSort_perm S (fun a b => decide (a ≤ b))
  have hlen : (S.mergeSort (fun a b => decide (a ≤ b))).length = S.length :=
    hperm.length_eq
  constructor
  · rw [← hlen]
    exact List.indexOf_lt_length.2 (hperm.mem_iff.2 hx1)
  · rw [← hlen]
    exact List.indexOf_lt_length.2 (hperm.mem_iff.2 hx2)

theorem subgraph_canonical_mem_keys (n : Nat) (S : List Nat) (edges : List (Nat × Nat))
    (hlen : S.length = n) :
    subgraph_to_canonical S (get_subgraph_edges S edges)
      ∈ (generate_all_unique_motifs n).map Prod.fst := by
  rw [subgraph_to_canonical_eq, hlen]
  rcases generate_motifs_complete n (hlen ▸ subgraph_canonical_edges_inRange S edges)
    with ⟨e, he⟩
  exact List.mem_map.2 ⟨_, he, rfl⟩

theorem motif_count_total_eq (n : Nat) (vertices : List Nat) (edges : List (Nat × Nat)) :
    motif_count_total n vertices edges
      = if n ≤ vertices.length then Nat.choose vertices.length n else 0 := by
  by_cases hn : n ≤ vertices.length
  · rw [if_pos hn]
    unfold motif_count_total
    simp only [motif_count, if_pos hn]
    have hcomp : (generate_all_unique_motifs n).map
        (fun m => ((combinationsL n vertices).map
          (fun s => subgraph_to_canonical s (get_subgraph_edges s edges))).count m.1)
        = ((generate_all_unique_motifs n).map Prod.fst).map
          (fun k => ((combinationsL n vertices).map
            (fun s => subgraph_to_canonical s (get_subgraph_edges s edges))).count k) := by
      rw [List.map_map]
      rfl
    rw [hcomp]
    have hmem : ∀ x ∈ (combinationsL n vertices).map
        (fun s => subgraph_to_canonical s (get_subgraph_edges s edges)),
        x ∈ (generate_all_unique_motifs n).map Prod.fst := by
      intro x hx
      rcases List.mem_map.1 hx with ⟨S, hS, rfl⟩
      exact subgraph_canonical_mem_keys n S edges (combinationsL_mem_length n vertices S hS)
    rw [sum_counts_eq_length _ _ (generate_motifs_keys_nodup n) hmem, List.length_map,
      combinationsL_length]
  · rw [if_neg hn]
    unfold motif_count_total
    simp only [motif_count, if_neg hn]
    exact sum_map_zero _ _ (fun _ _ => rfl)

/-! ### q1: weak connectivity soundness and the isomorphism filter -/

theorem undirStep_symm (edges : List (Nat × Nat)) : Symmetric (undirStep edges) := by
  intro a b h
  rcases h with h | h
  · exact Or.inr h
  · exact Or.inl h

theorem wreach_sound (n : Nat) (edges : List (Nat × Nat)) :
    ∀ k, ∀ v ∈ wreach n edges k, Relation.ReflTransGen (undirStep edges) 0 v := by
  intro k
  induction k with
  | zero =>
      intro v hv
      have hv0 : v = 0 := by simpa [wreach] using hv
      exact hv0 ▸ Relation.ReflTransGen.refl
  | succ k ih =>
      intro v hv
      unfold wreach expandOnce at hv
      rcases List.mem_filter.1 hv with ⟨hvr, hcond⟩
      rw [Bool.or_eq_true] at hcond
      rcases hcond with h | h
      · exact ih v (of_decide_eq_true h)
      · rcases List.any_eq_true.1 h with ⟨u, hu, hadj⟩
        have hstep : undirStep edges u v := by
          unfold undirAdj at hadj
          rw [Bool.or_eq_true] at hadj
          rcases hadj with h1 | h1
          · exact Or.inl (of_decide_eq_true h1)
          · exact Or.inr (of_decide_eq_true h1)
        exact Relation.ReflTransGen.tail (ih u hu) hstep

theorem is_weakly_connected_sound {n : Nat} {edges : List (Nat × Nat)}
    (h : is_weakly_connected n edges = true) : WeaklyConnected n edges := by
  have hall := List.all_eq_true.1 h
  intro u hu v hv
  have hu0 : Relation.ReflTransGen (undirStep edges) 0 u :=
    wreach_sound n edges n u (of_decide_eq_true (hall u (List.mem_range.2 hu)))
  have hv0 : Relation.ReflTransGen (undirStep edges) 0 v :=
    wreach_sound n edges n v (of_decide_eq_true (hall v (List.mem_range.2 hv)))
  have hsym := Relation.ReflTransGen.symmetric (undirStep_symm edges)
  exact (hsym hu0).trans hv0

theorem nx_is_isomorphic_iff {n : Nat} {e1 e2 : List (Nat × Nat)}
    (h1 : EdgesInRange n e1) (h2 : EdgesInRange n e2) :
    nx_is_isomorphic n e1 e2 = true ↔ GraphIso n e1 e2 := by
  unfold nx_is_isomorphic
  rw [List.any_eq_true]
  constructor
  · rintro ⟨p, hpmem, hp⟩
    have hperm := (mem_permsL _ _).1 hpmem
    have hiff : ∀ u, u < n → ∀ v, v < n →
        ((u, v) ∈ e1 ↔ (p.getD u 0, p.getD v 0) ∈ e2) := by
      intro u hu v hv
      have h3 := List.all_eq_true.1 hp u (List.mem_range.2 hu)
      have h4 := List.all_eq_true.1 h3 v (List.mem_range.2 hv)
      rw [beq_iff_eq, decide_eq_decide] at h4
      exact h4
    refine ⟨p, hperm, ?_⟩
    intro x
    constructor
    · intro hx
      rcases mem_applyPerm.1 hx with ⟨e, he, hx1, hx2⟩
      have h5 := (hiff e.1 (h1 e he).1 e.2 (h1 e he).2).1 (by simpa using he)
      have hx3 : x = (p.getD e.1 0, p.getD e.2 0) := by
        rw [Prod.ext_iff]
        exact ⟨hx1.symm, hx2.symm⟩
      rw [hx3]
      exact h5
    · intro hx
      have hxr1 := (h2 x hx).1
      have hxr2 := (h2 x hx).2
      have hiv1 := perm_getD_lt (invPerm_perm hperm) hxr1
      have hiv2 := perm_getD_lt (invPerm_perm hperm) hxr2
      have hpre : (p.getD ((invPerm n p).getD x.1 0) 0,
          p.getD ((invPerm n p).getD x.2 0) 0) ∈ e2 := by
        rw [perm_getD_invPerm hperm hxr1, perm_getD_invPerm hperm hxr2]
        simpa using hx
      have h5 := (hiff _ hiv1 _ hiv2).2 hpre
      exact mem_applyPerm.2
        ⟨_, h5, perm_getD_invPerm hperm hxr1, perm_getD_invPerm hperm hxr2⟩
  · rintro ⟨p, hperm, hsame⟩
    refine ⟨p, (mem_permsL _ _).2 hperm, ?_⟩
    rw [List.all_eq_true]
    intro u hu
    rw [List.all_eq_true]
    intro v hv
    rw [beq_iff_eq, decide_eq_decide]
    constructor
    · intro hm
      exact (hsame (p.getD u 0, p.getD v 0)).1 (mem_applyPerm.2 ⟨(u, v), hm, rfl, rfl⟩)
    · intro hm
      have hx := (hsame _).2 hm
      rcases mem_applyPerm.1 hx with ⟨e, he, h1e, h2e⟩
      have hu' := List.mem_range.1 hu
      have hv' := List.mem_range.1 hv
      have heq1 : e.1 = u := perm_getD_inj hperm (h1 e he).1 hu' (by rw [h1e])
      have heq2 : e.2 = v := perm_getD_inj hperm (h1 e he).2 hv' (by rw [h2e])
      rw [← heq1, ← heq2]
      simpa using he

theorem goodGraph_inRange {n : Nat} {E : List (Nat × Nat)} (h : GoodGraph n E) :
    EdgesInRange n E := fun e he => ⟨(h.2 e he).1, (h.2 e he).2.1⟩

theorem mem_all_possible_edges {n : Nat} {e : Nat × Nat} :
    e ∈ all_possible_edges n ↔ e.1 < n ∧ e.2 < n ∧ e.1 ≠ e.2 := by
  unfold all_possible_edges
  rw [List.mem_flatMap]
  constructor
  · rintro ⟨i, hi, hmem⟩
    rcases List.mem_map.1 hmem with ⟨j, hj, rfl⟩
    have hjj := List.mem_filter.1 hj
    exact ⟨List.mem_range.1 hi, List.mem_range.1 hjj.1, of_decide_eq_true hjj.2⟩
  · rintro ⟨hlt1, hlt2, hne⟩
    exact ⟨e.1, List.mem_range.2 hlt1, List.mem_map.2
      ⟨e.2, List.mem_filter.2 ⟨List.mem_range.2 hlt2, decide_eq_true hne⟩, rfl⟩⟩

theorem wc_fold_inv (n : Nat) (subsets : List (List (Nat × Nat))) :
    ∀ gs : List (List (Nat × Nat)),
      (∀ E ∈ subsets, GoodGraph n E) →
      (∀ E ∈ gs, GoodGraph n E ∧ is_weakly_connected n E = true) →
      gs.Pairwise (fun a b => ¬ GraphIso n a b) →
      (∀ E ∈ subsets.foldl (wc_step n) gs,
        GoodGraph n E ∧ is_weakly_connected n E = true) ∧
      (subsets.foldl (wc_step n) gs).Pairwise (fun a b => ¬ GraphIso n a b) := by
  induction subsets with
  | nil => intro gs _ hgs hpw; exact ⟨hgs, hpw⟩
  | cons E subsets ih =>
      intro gs hsub hgs hpw
      rw [List.foldl_cons]
      have hEgood : GoodGraph n E := hsub E (List.mem_cons_self E subsets)
      apply ih _ (fun F hF => hsub F (List.mem_cons_of_mem _ hF))
      · intro F hF
        unfold wc_step at hF
        by_cases hwc : is_weakly_connected n E = true
        · rw [if_pos hwc] at hF
          by_cases hiso : gs.any (fun ex => nx_is_isomorphic n E ex) = true
          · rw [if_pos hiso] at hF
            exact hgs F hF
          · rw [if_neg hiso] at hF
            rcases List.mem_append.1 hF with h | h
            · exact hgs F h
            · have hFE : F = E := by simpa using h
              subst hFE
              exact ⟨hEgood, hwc⟩
        · rw [if_neg hwc] at hF
          exact hgs F hF
      · unfold wc_step
        by_cases hwc : is_weakly_connected n E = true
        · rw [if_pos hwc]
          by_cases hiso : gs.any (fun ex => nx_is_isomorphic n E ex) = true
          · rw [if_pos hiso]
            exact hpw
          · rw [if_neg hiso]
            rw [List.pairwise_append]
            refine ⟨hpw, by simp, ?_⟩
            intro a ha b hb
            have hbE : b = E := by simpa using hb
            subst hbE
            have hnx : nx_is_isomorphic n b a = false := by
              rcases Bool.eq_false_or_eq_true (nx_is_isomorphic n b a) with h | h
              · exact absurd (List.any_eq_true.2 ⟨a, ha, h⟩) hiso
              · exact h
            intro hisoab
            have hisoba := graphIso_symm (goodGraph_inRange (hgs a ha).1)
              (goodGraph_inRange hEgood) hisoab
            have := (nx_is_isomorphic_iff (goodGraph_inRange hEgood)
              (goodGraph_inRange (hgs a ha).1)).2 hisoba
            rw [hnx] at this
            cases this
        · rw [if_neg hwc]
          exact hpw

theorem wc_outer_inv (n : Nat) (rs : List Nat) :
    (∀ r ∈ rs, 1 ≤ r) →
    ∀ gs : List (List (Nat × Nat)),
      (∀ E ∈ gs, GoodGraph n E ∧ is_weakly_connected n E = true) →
      gs.Pairwise (fun a b => ¬ GraphIso n a b) →
      (∀ E ∈ rs.foldl (fun graphs r =>
          (combinationsL r (all_possible_edges n)).foldl (wc_step n) graphs) gs,
        GoodGraph n E ∧ is_weakly_connected n E = true) ∧
      (rs.foldl (fun graphs r =>
          (combinationsL r (all_possible_edges n)).foldl (wc_step n) graphs) gs).Pairwise
        (fun a b => ¬ GraphIso n a b) := by
  induction rs with
  | nil => intro _ gs hgs hpw; exact ⟨hgs, hpw⟩
  | cons r rs ih =>
      intro hr gs hgs hpw
      rw [List.foldl_cons]
      have hsubgood : ∀ E ∈ combinationsL r (all_possible_edges n), GoodGraph n E := by
        intro E hE
        constructor
        · intro hnil
          have hlen := combinationsL_mem_length r _ E hE
          rw [hnil] at hlen
          have hr1 := hr r (List.mem_cons_self r rs)
          simp at hlen
          omega
        · intro e he
          exact mem_all_possible_edges.1 (combinationsL_mem_subset r _ E hE e he)
      rcases wc_fold_inv n (combinationsL r (all_possible_edges n)) gs hsubgood hgs hpw
        with ⟨hmem, hpw2⟩
      exact ih (fun s hs => hr s (List.mem_cons_of_mem _ hs)) _ hmem hpw2

theorem generate_wc_inv (n : Nat) :
    (∀ E ∈ generate_weakly_connected_graphs n,
      GoodGraph n E ∧ is_weakly_connected n E = true) ∧
    (generate_weakly_connected_graphs n).Pairwise (fun a b => ¬ GraphIso n a b) := by
  unfold generate_weakly_connected_graphs
  apply wc_outer_inv
  · intro r hr
    rcases List.mem_map.1 hr with ⟨k, _, rfl⟩
    omega
  · intro E hE
    cases hE
  · exact List.Pairwise.nil

/-! ### Idempotence: re-canonicalizing the canonical matrix -/

theorem mem_matrix_edges {n : Nat} {M : List (List Nat)} {e : Nat × Nat} :
    e ∈ matrix_edges n M ↔ e.1 < n ∧ e.2 < n ∧ entry M e.1 e.2 = 1 := by
  unfold matrix_edges
  rw [List.mem_flatMap]
  constructor
  · rintro ⟨i, hi, hmem⟩
    rcases List.mem_filterMap.1 hmem with ⟨j, hj, hfj⟩
    by_cases h : entry M i j = 1
    · rw [if_pos h] at hfj
      injection hfj with hfj
      subst hfj
      exact ⟨List.mem_range.1 hi, List.mem_range.1 hj, h⟩
    · rw [if_neg h] at hfj
      exact absurd hfj (Option.noConfusion)
  · rintro ⟨h1, h2, h3⟩
    refine ⟨e.1, List.mem_range.2 h1, List.mem_filterMap.2 ⟨e.2, List.mem_range.2 h2, ?_⟩⟩
    rw [if_pos h3]

theorem canonical_mem_form {n : Nat} {E : List (Nat × Nat)} (hE : EdgesInRange n E) :
    ∃ p : List Nat, p.Perm (List.range n) ∧
      graph_to_canonical n E
        = mkMatrix n (fun i j => if (p.getD i 0, p.getD j 0) ∈ E then 1 else 0) := by
  rcases mem_candMatrices.1 (canonical_spec n E).1 with ⟨p, hp, hpeq⟩
  refine ⟨p, hp, ?_⟩
  rw [hpeq, permMatrix_eq_mkMatrix, buildAdj_eq hE]
  apply mkMatrix_congr
  intro i hi j hj
  rw [entry_mkMatrix (perm_getD_lt hp hi) (perm_getD_lt hp hj)]

theorem matrix_edges_inRange (n : Nat) (M : List (List Nat)) :
    EdgesInRange n (matrix_edges n M) :=
  fun _ he => ⟨(mem_matrix_edges.1 he).1, (mem_matrix_edges.1 he).2.1⟩

theorem buildAdj_matrix_edges {n : Nat} {M : List (List Nat)}
    (f : Nat → Nat → Nat) (hM : M = mkMatrix n f)
    (h01 : ∀ i, i < n → ∀ j, j < n → f i j = 0 ∨ f i j = 1) :
    buildAdj n (matrix_edges n M) = M := by
  rw [buildAdj_eq (matrix_edges_inRange n M)]
  conv_rhs => rw [hM]
  apply mkMatrix_congr
  intro i hi j hj
  have hentry : entry M i j = f i j := by
    rw [hM, entry_mkMatrix hi hj]
  by_cases hmem : (i, j) ∈ matrix_edges n M
  · have h1 := (mem_matrix_edges.1 hmem).2.2
    rw [hentry] at h1
    rw [if_pos hmem, h1]
  · have hne1 : entry M i j ≠ 1 := fun hcontra =>
      hmem (mem_matrix_edges.2 ⟨hi, hj, hcontra⟩)
    rw [hentry] at hne1
    rcases h01 i hi j hj with h0 | h1
    · rw [if_neg hmem, h0]
    · exact absurd h1 hne1

theorem canonical_matrix_edges {n : Nat} {E : List (Nat × Nat)} (hE : EdgesInRange n E) :
    graph_to_canonical n (matrix_edges n (graph_to_canonical n E))
      = graph_to_canonical n E := by
  rcases canonical_mem_form hE with ⟨p, hp, hform⟩
  have hbuild : buildAdj n (matrix_edges n (graph_to_canonical n E))
      = graph_to_canonical n E :=
    buildAdj_matrix_edges _ hform (fun i _ j _ => by
      by_cases h : (p.getD i 0, p.getD j 0) ∈ E
      · rw [if_pos h]
        exact Or.inr rfl
      · rw [if_neg h]
        exact Or.inl rfl)
  rcases mem_candMatrices.1 (canonical_spec n E).1 with ⟨p0, hp0, hp0eq⟩
  apply canonical_congr_cands
  intro X
  rw [mem_candMatrices, mem_candMatrices]
  constructor
  · rintro ⟨q, hq, rfl⟩
    rw [hbuild, hp0eq, permMatrix_comp _ hp0 hq]
    exact ⟨q.map (fun i => p0.getD i 0), map_getD_perm hp0 hq, rfl⟩
  · rintro ⟨r, hr, rfl⟩
    refine ⟨r.map (fun i => (invPerm n p0).getD i 0),
      map_getD_perm (invPerm_perm hp0) hr, ?_⟩
    rw [hbuild, hp0eq,
      permMatrix_comp _ hp0 (map_getD_perm (invPerm_perm hp0) hr)]
    congr 1
    rw [List.map_map]
    have hid : r.map ((fun i => p0.getD i 0) ∘ fun i => (invPerm n p0).getD i 0)
        = r.map id := by
      apply List.map_congr_left
      intro x hx
      exact perm_getD_invPerm hp0 (List.mem_range.1 (hr.mem_iff.1 hx))
    rw [hid, List.map_id]

/-! ### The claims -/

/-- Claim C1: for every vertex count `k` and edge lists over `0..k-1`,
`graph_to_canonical k E1 = graph_to_canonical k E2` holds exactly when the
labeled graphs `(k, E1)` and `(k, E2)` are related by some vertex permutation;
in particular non-isomorphic inputs never produce equal canonical forms. -/
theorem claim_C1 (k : Nat) (E1 E2 : List (Nat × Nat))
    (h1 : EdgesInRange k E1) (h2 : EdgesInRange k E2) :
    graph_to_canonical k E1 = graph_to_canonical k E2 ↔ GraphIso k E1 E2 :=
  canonical_eq_iff_iso h1 h2

theorem claim_C1_witness :
    graph_to_canonical 2 [(0, 1)] = graph_to_canonical 2 [(1, 0)]
      ↔ GraphIso 2 [(0, 1)] [(1, 0)] :=
  claim_C1 2 [(0, 1)] [(1, 0)] (by decide) (by decide)

/-- Claim C2: the canonical form is invariant under relabeling the vertices by
any permutation `p` of `0..k-1`: `graph_to_canonical k E` equals
`graph_to_canonical k (applyPerm p E)`. -/
theorem claim_C2 (k : Nat) (E : List (Nat × Nat)) (p : List Nat)
    (hp : p.Perm (List.range k)) (hE : EdgesInRange k E) :
    graph_to_canonical k E = graph_to_canonical k (applyPerm p E) :=
  (canonical_applyPerm hp hE).symm

theorem claim_C2_witness :
    graph_to_canonical 2 [(0, 1)] = graph_to_canonical 2 (applyPerm [1, 0] [(0, 1)]) :=
  claim_C2 2 [(0, 1)] [1, 0] (by decide) (by decide)

/-- Claim C3: over any host graph, the per-motif occurrence counts of the
Motif Counter sum to `C(|vertices|, k)` when `k ≤ |vertices|`, and to 0 when
`k > |vertices|`. -/
theorem claim_C3 (k : Nat) (vertices : List Nat) (edges : List (Nat × Nat)) :
    (k ≤ vertices.length →
      motif_count_total k vertices edges = Nat.choose vertices.length k) ∧
    (vertices.length < k → motif_count_total k vertices edges = 0) := by
  constructor
  · intro h
    rw [motif_count_total_eq, if_pos h]
  · intro h
    rw [motif_count_total_eq, if_neg (by omega)]

theorem claim_C3_witness :
    motif_count_total 1 [5, 7] [(5, 7)] = Nat.choose 2 1 ∧
      motif_count_total 3 [5, 7] [(5, 7)] = 0 :=
  ⟨(claim_C3 1 [5, 7] [(5, 7)]).1 (by decide), (claim_C3 3 [5, 7] [(5, 7)]).2 (by decide)⟩

/-- Claim C4: `generate_all_unique_motifs k` has pairwise-distinct canonical
forms, is sorted strictly ascending by canonical form, each representative
edge list is the one decoded from the numerically smallest bitmask realizing
its canonical form among `0 .. 2^(k*k) - 1`, and the motif report lists every
one of these classes in that order (zero-count classes included). -/
theorem claim_C4 (k : Nat) :
    ((generate_all_unique_motifs k).map Prod.fst).Nodup ∧
    (generate_all_unique_motifs k).Pairwise (fun a b => a.1 < b.1) ∧
    (∀ ce ∈ generate_all_unique_motifs k,
      ∃ m, m < 2 ^ (k * k) ∧ ce.2 = mask_to_edges k m ∧
        ce.1 = graph_to_canonical k (mask_to_edges k m) ∧
        ∀ m2, m2 < 2 ^ (k * k) →
          graph_to_canonical k (mask_to_edges k m2) = ce.1 → m ≤ m2) ∧
    (∀ vertices edges, write_motifs_entries k vertices edges
      = (generate_all_unique_motifs k).map (fun ce =>
          (ce.2.map (fun e => (e.1 + 1, e.2 + 1)), motif_count k vertices edges ce.1))) :=
  ⟨generate_motifs_keys_nodup k, generate_motifs_sorted_strict k,
    fun _ hce => generate_motifs_rep k hce, fun _ _ => rfl⟩

theorem claim_C4_witness : ((generate_all_unique_motifs 1).map Prod.fst).Nodup :=
  (claim_C4 1).1

/-- Claim C5 (counterexample): the enumerator's bitmask space for `k = 2`
includes self-loop positions, so it does not return 3 classes. -/
theorem claim_C5_counterexample : ¬ ((generate_all_unique_motifs 2).length = 3) := by
  rw [(generate_motifs_perm 2).length_eq]
  decide

/-- Claim C5 (amended): for `k = 2` the motif enumerator returns exactly 10
pairwise distinct canonical forms — the number of directed graphs on two
vertices with self-loops allowed, up to isomorphism — not 3. -/
theorem claim_C5 : ((generate_all_unique_motifs 2).map Prod.fst).Nodup ∧
    (generate_all_unique_motifs 2).length = 10 := by
  refine ⟨generate_motifs_keys_nodup 2, ?_⟩
  rw [(generate_motifs_perm 2).length_eq]
  decide

/-- Claim C6 (counterexample): the weakly-connected generator does not return
exactly one graph for `n = 1`. -/
theorem claim_C6_counterexample : ¬ ((generate_weakly_connected_graphs 1).length = 1) := by
  decide

/-- Claim C6 (amended): `generate_weakly_connected_graphs 1` returns the empty
list: the edge-subset loop starts at subset size 1, and one vertex admits no
edges without self-loops, so no graph at all is produced (the edgeless
single-vertex graph is skipped). -/
theorem claim_C6 : generate_weakly_connected_graphs 1 = [] := by decide

/-- Claim C7: `graph_to_canonical 0 []` is the single empty matrix, the
Motif Counter with `k = 0` performs exactly one vacuous empty vertex
selection, and that trivial form receives count exactly 1 on any host graph. -/
theorem claim_C7 (vertices : List Nat) (edges : List (Nat × Nat)) :
    graph_to_canonical 0 [] = [] ∧
    combinationsL 0 vertices = [[]] ∧
    motif_count 0 vertices edges (graph_to_canonical 0 []) = 1 := by
  refine ⟨rfl, combinationsL_zero vertices, ?_⟩
  have hsub : get_subgraph_edges [] edges = [] := by
    induction edges with
    | nil => rfl
    | cons e es ih =>
        simp only [get_subgraph_edges, List.filter_cons] at ih ⊢
        simp [ih]
  unfold motif_count
  rw [if_pos (Nat.zero_le _)]
  rw [combinationsL_zero vertices]
  simp only [List.map]
  rw [hsub]
  decide

theorem claim_C7_witness :
    motif_count 0 [3, 7] [(3, 7)] (graph_to_canonical 0 []) = 1 :=
  (claim_C7 [3, 7] [(3, 7)]).2.2

/-- Claim C8: the canonical form depends only on the set of edges: two edge
lists over `0..k-1` (duplicates and self-loops permitted) with equal
underlying edge sets canonicalize identically. -/
theorem claim_C8 (k : Nat) (E1 E2 : List (Nat × Nat))
    (h1 : EdgesInRange k E1) (_h2 : EdgesInRange k E2)
    (hsame : sameEdges E1 E2) :
    graph_to_canonical k E1 = graph_to_canonical k E2 :=
  canonical_congr h1 hsame

theorem claim_C8_witness :
    graph_to_canonical 2 [(0, 1), (0, 1), (1, 1)] = graph_to_canonical 2 [(1, 1), (0, 1)] :=
  claim_C8 2 [(0, 1), (0, 1), (1, 1)] [(1, 1), (0, 1)] (by decide) (by decide)
    (by intro x; simp [List.mem_cons]; tauto)

/-- Claim C9: canonicalization is idempotent — reading the edges back off the
returned matrix and canonicalizing again returns the same matrix — and the
returned matrix is itself a permuted copy of the input's adjacency matrix,
lexicographically minimal among all such copies. -/
theorem claim_C9 (k : Nat) (E : List (Nat × Nat)) (hE : EdgesInRange k E) :
    graph_to_canonical k (matrix_edges k (graph_to_canonical k E))
        = graph_to_canonical k E ∧
    (∃ p : List Nat, p.Perm (List.range k) ∧
      graph_to_canonical k E = permMatrix k (buildAdj k E) p) ∧
    ∀ q : List Nat, q.Perm (List.range k) →
      graph_to_canonical k E ≤ permMatrix k (buildAdj k E) q := by
  refine ⟨canonical_matrix_edges hE, mem_candMatrices.1 (canonical_spec k E).1, ?_⟩
  intro q hq
  exact (canonical_spec k E).2 _ (mem_candMatrices.2 ⟨q, hq, rfl⟩)

theorem claim_C9_witness :
    graph_to_canonical 2 (matrix_edges 2 (graph_to_canonical 2 [(0, 1)]))
      = graph_to_canonical 2 [(0, 1)] :=
  (claim_C9 2 [(0, 1)] (by decide)).1

/-- Claim C10: for `n ≥ 1`, every graph returned by
`generate_weakly_connected_graphs n` is weakly connected and has a nonempty
self-loop-free edge list over the vertex set `0..n-1` (the generator puts
exactly the `n` vertices `0..n-1` in every graph), and no two returned graphs
are isomorphic. -/
theorem claim_C10 (n : Nat) (_hn : 1 ≤ n) :
    (∀ E ∈ generate_weakly_connected_graphs n,
      WeaklyConnected n E ∧ E ≠ [] ∧ ∀ e ∈ E, e.1 < n ∧ e.2 < n ∧ e.1 ≠ e.2) ∧
    (generate_weakly_connected_graphs n).Pairwise (fun a b => ¬ GraphIso n a b) := by
  rcases generate_wc_inv n with ⟨hmem, hpw⟩
  refine ⟨?_, hpw⟩
  intro E hE
  rcases hmem E hE with ⟨⟨hne, hprops⟩, hwc⟩
  exact ⟨is_weakly_connected_sound hwc, hne, hprops⟩

theorem claim_C10_witness :
    (∀ E ∈ generate_weakly_connected_graphs 2,
      WeaklyConnected 2 E ∧ E ≠ [] ∧ ∀ e ∈ E, e.1 < 2 ∧ e.2 < 2 ∧ e.1 ≠ e.2) ∧
    (generate_weakly_connected_graphs 2).Pairwise (fun a b => ¬ GraphIso 2 a b) :=
  claim_C10 2 (by decide)
